import Mathlib

/-!
Shallow embedding of `scripts/niphaseogram.py` (NICERsoft).

The program reads an event list (times, pulse phases, energies, optional
weights), filters it by energy, partitions the observation window into
`ntoa` equal segments, accumulates a per-segment phase histogram of `nbins`
bins plus a running full profile, stacks the per-segment histograms into a
2-d phaseogram (optionally rescaled for display and duplicated over two
phase cycles), and derives a folded 1-d profile with error bars.

Numbers are modelled as `ℚ` (exact arithmetic; the claims are about the
algorithm, not floating-point rounding).  numpy boolean-mask indexing with a
mask whose length differs from the array's raises an `IndexError`; that
partiality is modelled with `Option` where it can actually arise (the
unfiltered `weights` array).  Display-only real-valued quantities
(`sqrt`, the z-axis transforms) live in `ℝ`.
-/

namespace Niphaseogram

/-- Python `int()` applied to a real value: truncation toward zero.
Used for `bin = int(ph*options.nbins)` (line 127/133 of the source). -/
def pyInt (q : ℚ) : ℤ := if q < 0 then -⌊-q⌋ else ⌊q⌋

/-- The per-segment event selection of line 123 of the source:
`idx = (mjds>tstart)&(mjds<tstop)` — strict inequality at BOTH ends. -/
def inSegment (tstart tstop t : ℚ) : Bool :=
  decide (tstart < t) && decide (t < tstop)

/-- numpy boolean-mask selection when the mask length matches the array
(the case that cannot raise): keep `xs[i]` whenever `flags[i]` is true. -/
def selectMask {α : Type} (flags : List Bool) (xs : List α) : List α :=
  (flags.zip xs).filterMap (fun p => if p.1 then some p.2 else none)

/-- numpy boolean-mask selection in general: raises `IndexError` (here:
`none`) when the mask length differs from the array length. -/
def applyMask {α : Type} (flags : List Bool) (xs : List α) : Option (List α) :=
  if flags.length = xs.length then some (selectMask flags xs) else none

/-- The energy cut of line 84 of the source:
`numpy.logical_and((en>=options.emin),(en<=options.emax))` — inclusive both
ends. -/
def energyKeep (emin emax : ℚ) (en : List ℚ) : List Bool :=
  en.map (fun e => decide (emin ≤ e) && decide (e ≤ emax))

/-- `profile[bin] += w` on a Python list/array.  `List.set` is a no-op when
the index is out of range, whereas Python would raise `IndexError`; every
claim below restricts phases to `[0,1)`, where the index is in range. -/
def addAt (l : List ℚ) (i : ℕ) (w : ℚ) : List ℚ :=
  l.set i (l.getD i 0 + w)

/-- The phase-bin index `int(ph*options.nbins)` as a list index. -/
def binIdx (B : ℕ) (ph : ℚ) : ℕ := (pyInt (ph * B)).toNat

/-- Body of the unweighted inner loop (source lines 133-135):
`bin = int(ph*nbins); profile[bin] += 1; fullprof[bin] += 1`. -/
def pairStep (B : ℕ) (pf : List ℚ × List ℚ) (ph : ℚ) : List ℚ × List ℚ :=
  (addAt pf.1 (binIdx B ph) 1, addAt pf.2 (binIdx B ph) 1)

/-- The unweighted inner loop (source lines 132-135): one pass over the
selected phases, incrementing the fresh per-segment profile and the running
full profile together. -/
def accumPair (B : ℕ) (sel : List ℚ) (full : List ℚ) : List ℚ × List ℚ :=
  sel.foldl (pairStep B) (List.replicate B 0, full)

/-- Body of the weighted inner loop (source lines 127-130):
`bin = int(ph*nbins); profile[bin] += ww; fullprof[bin] += ww;
err[bin] += ww**2`. -/
def tripleStep (B : ℕ) (pfe : List ℚ × List ℚ × List ℚ) (pw : ℚ × ℚ) :
    List ℚ × List ℚ × List ℚ :=
  (addAt pfe.1 (binIdx B pw.1) pw.2,
   addAt pfe.2.1 (binIdx B pw.1) pw.2,
   addAt pfe.2.2 (binIdx B pw.1) (pw.2 * pw.2))

/-- The weighted inner loop (source lines 126-130): one pass over the
selected (phase, weight) pairs, incrementing the per-segment profile and the
full profile by the weight and the error accumulator by weight squared. -/
def accumTriple (B : ℕ) (sel : List (ℚ × ℚ)) (full err : List ℚ) :
    List ℚ × List ℚ × List ℚ :=
  sel.foldl (tripleStep B) (List.replicate B 0, full, err)

/-- Source lines 102-106 for a nonnegative segment count:
`toadur = (MJDSTOP-MJDSTART)/ntoa`,
`mjdstarts = MJDSTART + toadur*arange(ntoa)`, `mjdstops = mjdstarts+toadur`.
(For `n = 0` the range is empty, so the division by zero inside the
unused duration never materialises in the list.) -/
def mjdSegments (start stop : ℚ) (n : ℕ) : List (ℚ × ℚ) :=
  (List.range n).map
    (fun k : ℕ => (start + (stop - start) / n * (k : ℚ),
                   start + (stop - start) / n * (k : ℚ) + (stop - start) / n))

/-- Source lines 102-106 with the command-line `ntoa` as a raw integer:
`ntoa = 0` raises `ZeroDivisionError` (modelled as `none`); a negative
`ntoa` makes `numpy.arange(ntoa)` empty, so the segment list is empty and
NO error is raised. -/
def timeSegmenterZ (start stop : ℚ) (n : ℤ) : Option (List (ℚ × ℚ)) :=
  if n = 0 then none
  else
    some ((List.range n.toNat).map
      (fun k : ℕ => (start + (stop - start) / (n : ℚ) * (k : ℚ),
                     start + (stop - start) / (n : ℚ) * (k : ℚ)
                       + (stop - start) / (n : ℚ))))

/-- The mutable arrays of the main loop: the flat list `a` of appended
per-segment bin values, the running full profile, and the weighted error
accumulator. -/
structure RunState where
  a : List ℚ
  fullprof : List ℚ
  err : List ℚ
  deriving DecidableEq, Repr

/-- The initial state (source lines 109-114). -/
def initState (B : ℕ) : RunState :=
  ⟨[], List.replicate B 0, List.replicate B 0⟩

/-- The effective observation start (source lines 95-99): `--tmin`, when
nonzero, OVERRIDES `MJDSTART` before the segments are computed. -/
def effStart (origStart tmin : ℚ) : ℚ :=
  if tmin ≠ 0 then tmin else origStart

/-- One iteration of the unweighted main loop (source lines 115-138):
either skip the segment (`tmin != 0 and tstart < tmin`, line 117) or select
its events by time and accumulate. -/
def segStepU (tmin : ℚ) (B : ℕ) (mjdsF phasesF : List ℚ)
    (st : RunState) (seg : ℚ × ℚ) : RunState :=
  if tmin ≠ 0 ∧ seg.1 < tmin then st
  else
    let segKeep := mjdsF.map (fun t => inSegment seg.1 seg.2 t)
    let sel := selectMask segKeep phasesF
    let pf := accumPair B sel st.fullprof
    ⟨st.a ++ pf.1, pf.2, st.err⟩

/-- The unweighted main loop (source lines 113-138): energy-filter the
times and phases, then fold `segStepU` over the segments.  `mjds`, `phases`
and `en` are columns of one FITS table, hence of equal length, so their
boolean-mask indexing cannot raise; `selectMask` is the matching-length
case. -/
def runUnweighted (origStart stop tmin : ℚ) (n B : ℕ)
    (mjds phases en : List ℚ) (emin emax : ℚ) : RunState :=
  let start := effStart origStart tmin
  let keep := energyKeep emin emax en
  let mjdsF := selectMask keep mjds
  let phasesF := selectMask keep phases
  (mjdSegments start stop n).foldl (segStepU tmin B mjdsF phasesF)
    (initState B)

/-- One iteration of the weighted main loop (source lines 115-138 with
`options.weights` set).  The weight column is read at line 80, BEFORE the
energy cut of lines 84-86, and is never filtered; `weights[idx]` at line
126 therefore applies a boolean mask of the filtered length to the
unfiltered array, which raises `IndexError` (`none`) whenever the lengths
differ. -/
def segStepW (tmin : ℚ) (B : ℕ) (mjdsF phasesF weights : List ℚ)
    (ost : Option RunState) (seg : ℚ × ℚ) : Option RunState := do
  let st ← ost
  if tmin ≠ 0 ∧ seg.1 < tmin then pure st
  else
    let segKeep := mjdsF.map (fun t => inSegment seg.1 seg.2 t)
    let sel := selectMask segKeep phasesF
    let selW ← applyMask segKeep weights
    let pfe := accumTriple B (sel.zip selW) st.fullprof st.err
    pure ⟨st.a ++ pfe.1, pfe.2.1, pfe.2.2⟩

/-- The weighted main loop: fold `segStepW` over the segments. -/
def runWeighted (origStart stop tmin : ℚ) (n B : ℕ)
    (mjds phases en weights : List ℚ) (emin emax : ℚ) : Option RunState :=
  let start := effStart origStart tmin
  let keep := energyKeep emin emax en
  let mjdsF := selectMask keep mjds
  let phasesF := selectMask keep phases
  (mjdSegments start stop n).foldl (segStepW tmin B mjdsF phasesF weights)
    (some (initState B))

/-- One row of `a.reshape(ntoa, nbins)`: the flat list cut into rows of
length `B`, `n` rows in all. -/
def chunkRows (B : ℕ) : ℕ → List ℚ → List (List ℚ)
  | 0, _ => []
  | n + 1, l => l.take B :: chunkRows B n (l.drop B)

/-- `a.reshape(ntoa, nbins)` (source line 154): defined exactly when the
flat length is `ntoa*nbins`, an error otherwise. -/
def reshape (n B : ℕ) (l : List ℚ) : Option (List (List ℚ)) :=
  if l.length = n * B then some (chunkRows B n l) else none

/-- `c = numpy.hstack([b,b])` (source line 156): each row is concatenated
with itself, duplicating the phase axis over two cycles. -/
def hstackSelf (m : List (List ℚ)) : List (List ℚ) :=
  m.map (fun r => r ++ r)

/-- The axis extent passed to `imshow` (source line 162):
`extent=(0, 2.0, MJDSTART, MJDSTOP)` with the (possibly tmin-overridden)
`MJDSTART`. -/
def axisExtent (origStart stop tmin : ℚ) : ℚ × ℚ × ℚ × ℚ :=
  (0, 2, effStart origStart tmin, stop)

/-- The four accepted z-axis scalings (source lines 142-149). -/
inductive Scale where
  | linear : Scale
  | log : Scale
  | sqrt : Scale
  | squared : Scale
  deriving DecidableEq, Repr

/-- Outcome of the `--scale` dispatch: a transform, or termination with the
logged diagnostic lines and the process exit status. -/
inductive ScaleOutcome where
  | ok : Scale → ScaleOutcome
  | exit : List String → ℕ → ScaleOutcome
  deriving DecidableEq, Repr

/-- The `--scale` dispatch (source lines 142-153).  An unrecognised value
logs two error lines and calls `sys.exit()` — with NO argument, which
terminates the process with exit status 0. -/
def selectScale (s : String) : ScaleOutcome :=
  if s = "linear" then .ok .linear
  else if s = "log" then .ok .log
  else if s = "sqrt" then .ok .sqrt
  else if s = "squared" then .ok .squared
  else
    .exit
      ["\tYour selection for the scaling of the z-axis of the phaseogram "
          ++ s ++ " is not understood",
       "\tPlease select from the following options: linear [default option], log, sqrt, squared "]
      0

/-- Projection used to state facts about the exit path: the number of
diagnostic lines and the exit status, or `none` on the success path. -/
def scaleExitInfo : ScaleOutcome → Option (ℕ × ℕ)
  | .ok _ => none
  | .exit msgs code => some (msgs.length, code)

/-- The elementwise z-axis transform (source lines 142-149), on reals. -/
noncomputable def scaleFun : Scale → ℝ → ℝ
  | .linear => fun x => x
  | .log => Real.log
  | .sqrt => Real.sqrt
  | .squared => fun x => x * x

/-- Doubling a profile over two phase cycles:
`numpy.concatenate((v, v))` (source lines 175 and 177). -/
def doubled (v : List ℚ) : List ℚ := v ++ v

/-- The step-plot value sequence of source line 173:
`concatenate((fullprof, fullprof, [fullprof[0]]))` — two cycles closed by a
repeat of the first bin. -/
def stepValues (fullprof : List ℚ) : List ℚ :=
  fullprof ++ fullprof ++ [fullprof.getD 0 0]

/-- The numeric data handed to the two plot panels: the scaled flat image
data, the raw accumulators, and the 1-d panel's values and error bars. -/
structure FigureData where
  image : List ℝ
  fullprof : List ℚ
  err : List ℚ
  py : List ℚ
  pe : List ℝ

/-- The figure data of an unweighted run (source lines 140-184 with
`options.weights` unset): the z transform is applied to the flat `a` only;
the 1-d panel uses `py = concatenate((fullprof, fullprof))` and
`pe = sqrt(py)`. -/
noncomputable def figureUnweighted (s : Scale) (origStart stop tmin : ℚ)
    (n B : ℕ) (mjds phases en : List ℚ) (emin emax : ℚ) : FigureData :=
  let st := runUnweighted origStart stop tmin n B mjds phases en emin emax
  { image := st.a.map (fun q => scaleFun s (q : ℝ))
    fullprof := st.fullprof
    err := st.err
    py := doubled st.fullprof
    pe := (doubled st.fullprof).map (fun q => Real.sqrt (q : ℝ)) }

/-- The figure data of a weighted run (source lines 140-184 with
`options.weights` set): as above but `pe = sqrt(concatenate((err, err)))`. -/
noncomputable def figureWeighted (s : Scale) (origStart stop tmin : ℚ)
    (n B : ℕ) (mjds phases en weights : List ℚ) (emin emax : ℚ) :
    Option FigureData :=
  (runWeighted origStart stop tmin n B mjds phases en weights emin emax).map
    (fun st =>
      { image := st.a.map (fun q => scaleFun s (q : ℝ))
        fullprof := st.fullprof
        err := st.err
        py := doubled st.fullprof
        pe := (doubled st.err).map (fun q => Real.sqrt (q : ℝ)) })

end Niphaseogram

namespace Niphaseogram

lemma length_addAt (l : List ℚ) (i : ℕ) (w : ℚ) :
    (addAt l i w).length = l.length := by
  simp [addAt]

lemma addAt_cons_succ (x : ℚ) (xs : List ℚ) (i : ℕ) (w : ℚ) :
    addAt (x :: xs) (i + 1) w = x :: addAt xs i w := by
  simp [addAt]

lemma sum_addAt (l : List ℚ) (i : ℕ) (w : ℚ) (h : i < l.length) :
    (addAt l i w).sum = l.sum + w := by
  induction l generalizing i with
  | nil => simp at h
  | cons x xs ih =>
    cases i with
    | zero => simp [addAt]; ring
    | succ i =>
      rw [addAt_cons_succ]
      have h' : i < xs.length := by simpa using h
      simp [ih i h']
      ring

lemma nonneg_addAt (l : List ℚ) (i : ℕ) (w : ℚ)
    (hl : ∀ x ∈ l, 0 ≤ x) (hw : 0 ≤ w) :
    ∀ x ∈ addAt l i w, 0 ≤ x := by
  intro x hx
  rcases List.mem_or_eq_of_mem_set hx with h | rfl
  · exact hl x h
  · have hd : 0 ≤ l.getD i 0 := by
      rcases lt_or_ge i l.length with hi | hi
      · rw [List.getD_eq_getElem l 0 hi]
        exact hl _ (List.getElem_mem hi)
      · rw [List.getD_eq_default l 0 hi]
    linarith

lemma getD_nonneg (l : List ℚ) (i : ℕ) (h : ∀ x ∈ l, 0 ≤ x) :
    0 ≤ l.getD i 0 := by
  rcases lt_or_ge i l.length with hi | hi
  · rw [List.getD_eq_getElem l 0 hi]
    exact h _ (List.getElem_mem hi)
  · rw [List.getD_eq_default l 0 hi]

lemma selectMask_nil_right {α : Type} (flags : List Bool) :
    selectMask flags ([] : List α) = [] := by
  cases flags <;> simp [selectMask]

lemma selectMask_cons {α : Type} (f : Bool) (flags : List Bool)
    (x : α) (xs : List α) :
    selectMask (f :: flags) (x :: xs) =
      if f then x :: selectMask flags xs else selectMask flags xs := by
  cases f <;> simp [selectMask]

lemma mem_selectMask {α : Type} (flags : List Bool) (xs : List α) :
    ∀ x ∈ selectMask flags xs, x ∈ xs := by
  induction flags generalizing xs with
  | nil => simp [selectMask]
  | cons f fs ih =>
    cases xs with
    | nil => simp [selectMask_nil_right]
    | cons y ys =>
      rw [selectMask_cons]
      intro x hx
      cases f with
      | false => exact List.mem_cons_of_mem y (ih ys x (by simpa using hx))
      | true =>
        simp only [if_pos] at hx
        rcases List.mem_cons.mp hx with rfl | hx
        · exact List.mem_cons_self x ys
        · exact List.mem_cons_of_mem y (ih ys x hx)

lemma length_selectMask {α : Type} (flags : List Bool) (xs : List α)
    (h : flags.length = xs.length) :
    (selectMask flags xs).length = flags.count true := by
  induction flags generalizing xs with
  | nil => simp [selectMask]
  | cons f fs ih =>
    cases xs with
    | nil => simp at h
    | cons y ys =>
      have h' : fs.length = ys.length := by simpa using h
      rw [selectMask_cons]
      cases f with
      | false => simp [ih ys h']
      | true => simp [ih ys h']

lemma count_true_map {β : Type} (q : β → Bool) (ys : List β) :
    (ys.map q).count true = ys.countP q := by
  induction ys with
  | nil => simp
  | cons y ys ih =>
    cases hq : q y <;> simp [List.countP_cons, hq, ih]

lemma countP_selectMask_zip {α β : Type} (xs : List α) (ys : List β)
    (h : xs.length = ys.length) (p : α → Bool) (q : β → Bool) :
    (selectMask (ys.map q) xs).countP p =
      (xs.zip ys).countP (fun xy => p xy.1 && q xy.2) := by
  induction xs generalizing ys with
  | nil => simp [selectMask_nil_right, selectMask]
  | cons x xs ih =>
    cases ys with
    | nil => simp at h
    | cons y ys =>
      have h' : xs.length = ys.length := by simpa using h
      rw [List.map_cons, selectMask_cons]
      cases hq : q y with
      | false => simp [List.zip_cons_cons, List.countP_cons, hq, ih ys h']
      | true => simp [List.zip_cons_cons, List.countP_cons, hq, ih ys h']

end Niphaseogram

namespace Niphaseogram

lemma pyInt_nonneg_eq_floor (q : ℚ) (h : 0 ≤ q) : pyInt q = ⌊q⌋ := by
  simp [pyInt, not_lt.mpr h]

lemma binIdx_lt (B : ℕ) (ph : ℚ) (hB : 1 ≤ B) (h0 : 0 ≤ ph) (h1 : ph < 1) :
    binIdx B ph < B := by
  have hq : (0 : ℚ) ≤ ph * B := mul_nonneg h0 (by positivity)
  have hfl : ⌊ph * (B : ℚ)⌋ < (B : ℤ) := by
    rw [Int.floor_lt]
    push_cast
    have hBpos : (0 : ℚ) < B := by positivity
    calc ph * (B : ℚ) < 1 * B := by
          exact mul_lt_mul_of_pos_right h1 hBpos
      _ = B := one_mul _
  have hfl0 : 0 ≤ ⌊ph * (B : ℚ)⌋ := Int.floor_nonneg.mpr hq
  rw [binIdx, pyInt_nonneg_eq_floor _ hq]
  omega

lemma foldl_pairStep_fst_length (B : ℕ) (sel : List ℚ) :
    ∀ pf : List ℚ × List ℚ,
      (sel.foldl (pairStep B) pf).1.length = pf.1.length := by
  induction sel with
  | nil => intro pf; rfl
  | cons ph sel ih =>
    intro pf
    rw [List.foldl_cons, ih]
    simp [pairStep, length_addAt]

lemma foldl_pairStep_snd_length (B : ℕ) (sel : List ℚ) :
    ∀ pf : List ℚ × List ℚ,
      (sel.foldl (pairStep B) pf).2.length = pf.2.length := by
  induction sel with
  | nil => intro pf; rfl
  | cons ph sel ih =>
    intro pf
    rw [List.foldl_cons, ih]
    simp [pairStep, length_addAt]

lemma foldl_pairStep_fst_sum (B : ℕ) (sel : List ℚ) :
    ∀ pf : List ℚ × List ℚ, (∀ ph ∈ sel, binIdx B ph < pf.1.length) →
      (sel.foldl (pairStep B) pf).1.sum = pf.1.sum + sel.length := by
  induction sel with
  | nil => intro pf _; simp
  | cons ph sel ih =>
    intro pf hbin
    rw [List.foldl_cons]
    have hlen : (pairStep B pf ph).1.length = pf.1.length := by
      simp [pairStep, length_addAt]
    rw [ih _ (fun p hp => by rw [hlen]; exact hbin p (List.mem_cons_of_mem _ hp))]
    have : (pairStep B pf ph).1.sum = pf.1.sum + 1 := by
      simp only [pairStep]
      exact sum_addAt _ _ _ (hbin ph (List.mem_cons_self _ _))
    rw [this]
    simp only [List.length_cons]
    push_cast
    ring

lemma foldl_pairStep_snd_sum (B : ℕ) (sel : List ℚ) :
    ∀ pf : List ℚ × List ℚ, (∀ ph ∈ sel, binIdx B ph < pf.2.length) →
      (sel.foldl (pairStep B) pf).2.sum = pf.2.sum + sel.length := by
  induction sel with
  | nil => intro pf _; simp
  | cons ph sel ih =>
    intro pf hbin
    rw [List.foldl_cons]
    have hlen : (pairStep B pf ph).2.length = pf.2.length := by
      simp [pairStep, length_addAt]
    rw [ih _ (fun p hp => by rw [hlen]; exact hbin p (List.mem_cons_of_mem _ hp))]
    have : (pairStep B pf ph).2.sum = pf.2.sum + 1 := by
      simp only [pairStep]
      exact sum_addAt _ _ _ (hbin ph (List.mem_cons_self _ _))
    rw [this]
    simp only [List.length_cons]
    push_cast
    ring

lemma foldl_pairStep_snd_nonneg (B : ℕ) (sel : List ℚ) :
    ∀ pf : List ℚ × List ℚ, (∀ x ∈ pf.2, 0 ≤ x) →
      ∀ x ∈ (sel.foldl (pairStep B) pf).2, 0 ≤ x := by
  induction sel with
  | nil => intro pf h; exact h
  | cons ph sel ih =>
    intro pf h
    rw [List.foldl_cons]
    exact ih _ (nonneg_addAt _ _ _ h zero_le_one)

lemma accumPair_fst_length (B : ℕ) (sel full : List ℚ) :
    (accumPair B sel full).1.length = B := by
  rw [accumPair, foldl_pairStep_fst_length]
  simp

lemma accumPair_snd_length (B : ℕ) (sel full : List ℚ) :
    (accumPair B sel full).2.length = full.length := by
  rw [accumPair, foldl_pairStep_snd_length]

lemma accumPair_fst_sum (B : ℕ) (sel full : List ℚ)
    (hbin : ∀ ph ∈ sel, binIdx B ph < B) :
    (accumPair B sel full).1.sum = sel.length := by
  rw [accumPair, foldl_pairStep_fst_sum B sel _ (by simpa using hbin)]
  simp

lemma accumPair_snd_sum (B : ℕ) (sel full : List ℚ)
    (hfull : full.length = B) (hbin : ∀ ph ∈ sel, binIdx B ph < B) :
    (accumPair B sel full).2.sum = full.sum + sel.length := by
  rw [accumPair, foldl_pairStep_snd_sum B sel _ (by simpa [hfull] using hbin)]

lemma foldl_tripleStep_fst_length (B : ℕ) (sel : List (ℚ × ℚ)) :
    ∀ pfe : List ℚ × List ℚ × List ℚ,
      (sel.foldl (tripleStep B) pfe).1.length = pfe.1.length := by
  induction sel with
  | nil => intro pfe; rfl
  | cons pw sel ih =>
    intro pfe
    rw [List.foldl_cons, ih]
    simp [tripleStep, length_addAt]

lemma foldl_tripleStep_snd_length (B : ℕ) (sel : List (ℚ × ℚ)) :
    ∀ pfe : List ℚ × List ℚ × List ℚ,
      (sel.foldl (tripleStep B) pfe).2.1.length = pfe.2.1.length := by
  induction sel with
  | nil => intro pfe; rfl
  | cons pw sel ih =>
    intro pfe
    rw [List.foldl_cons, ih]
    simp [tripleStep, length_addAt]

lemma foldl_tripleStep_err_length (B : ℕ) (sel : List (ℚ × ℚ)) :
    ∀ pfe : List ℚ × List ℚ × List ℚ,
      (sel.foldl (tripleStep B) pfe).2.2.length = pfe.2.2.length := by
  induction sel with
  | nil => intro pfe; rfl
  | cons pw sel ih =>
    intro pfe
    rw [List.foldl_cons, ih]
    simp [tripleStep, length_addAt]

lemma foldl_tripleStep_err_nonneg (B : ℕ) (sel : List (ℚ × ℚ)) :
    ∀ pfe : List ℚ × List ℚ × List ℚ, (∀ x ∈ pfe.2.2, 0 ≤ x) →
      ∀ x ∈ (sel.foldl (tripleStep B) pfe).2.2, 0 ≤ x := by
  induction sel with
  | nil => intro pfe h; exact h
  | cons pw sel ih =>
    intro pfe h
    rw [List.foldl_cons]
    exact ih _ (nonneg_addAt _ _ _ h (mul_self_nonneg _))

lemma accumTriple_err_length (B : ℕ) (sel : List (ℚ × ℚ)) (full err : List ℚ) :
    (accumTriple B sel full err).2.2.length = err.length := by
  rw [accumTriple, foldl_tripleStep_err_length]

lemma accumTriple_snd_length (B : ℕ) (sel : List (ℚ × ℚ)) (full err : List ℚ) :
    (accumTriple B sel full err).2.1.length = full.length := by
  rw [accumTriple, foldl_tripleStep_snd_length]

lemma accumTriple_err_nonneg (B : ℕ) (sel : List (ℚ × ℚ)) (full err : List ℚ)
    (h : ∀ x ∈ err, 0 ≤ x) :
    ∀ x ∈ (accumTriple B sel full err).2.2, 0 ≤ x := by
  rw [accumTriple]
  exact foldl_tripleStep_err_nonneg B sel _ (by simpa using h)

end Niphaseogram

namespace Niphaseogram

lemma length_mjdSegments (start stop : ℚ) (n : ℕ) :
    (mjdSegments start stop n).length = n := by
  rw [mjdSegments, List.length_map, List.length_range]

lemma mem_mjdSegments (start stop : ℚ) (n : ℕ) (seg : ℚ × ℚ)
    (h : seg ∈ mjdSegments start stop n) :
    ∃ k : ℕ, k < n ∧
      seg = (start + (stop - start) / n * (k : ℚ),
             start + (stop - start) / n * (k : ℚ) + (stop - start) / n) := by
  rw [mjdSegments] at h
  rcases List.mem_map.mp h with ⟨k, hk, hseg⟩
  exact ⟨k, List.mem_range.mp hk, hseg.symm⟩

lemma mjdSegments_fst_ge (start stop : ℚ) (n : ℕ) (h : start ≤ stop) :
    ∀ seg ∈ mjdSegments start stop n, start ≤ seg.1 := by
  intro seg hseg
  obtain ⟨k, _, rfl⟩ := mem_mjdSegments start stop n seg hseg
  have hd : (0 : ℚ) ≤ (stop - start) / n :=
    div_nonneg (by linarith) (by positivity)
  have hk0 : (0 : ℚ) ≤ (k : ℚ) := by positivity
  nlinarith

lemma mjdSegments_head_mem (start stop : ℚ) (n : ℕ) (hn : 1 ≤ n) :
    (start + (stop - start) / n * ((0 : ℕ) : ℚ),
     start + (stop - start) / n * ((0 : ℕ) : ℚ) + (stop - start) / n) ∈
      mjdSegments start stop n := by
  rw [mjdSegments]
  exact List.mem_map.mpr ⟨0, List.mem_range.mpr (by omega), rfl⟩

lemma segStepU_noskip_a (tmin : ℚ) (B : ℕ) (mjdsF phasesF : List ℚ)
    (st : RunState) (seg : ℚ × ℚ) (h : ¬(tmin ≠ 0 ∧ seg.1 < tmin)) :
    (segStepU tmin B mjdsF phasesF st seg).a =
      st.a ++ (accumPair B
        (selectMask (mjdsF.map (fun t => inSegment seg.1 seg.2 t)) phasesF)
        st.fullprof).1 := by
  simp [segStepU, h]

lemma segStepU_noskip_fullprof (tmin : ℚ) (B : ℕ) (mjdsF phasesF : List ℚ)
    (st : RunState) (seg : ℚ × ℚ) (h : ¬(tmin ≠ 0 ∧ seg.1 < tmin)) :
    (segStepU tmin B mjdsF phasesF st seg).fullprof =
      (accumPair B
        (selectMask (mjdsF.map (fun t => inSegment seg.1 seg.2 t)) phasesF)
        st.fullprof).2 := by
  simp [segStepU, h]

lemma foldlU_a_length (tmin : ℚ) (B : ℕ) (mjdsF phasesF : List ℚ)
    (segs : List (ℚ × ℚ)) :
    ∀ st : RunState, (∀ seg ∈ segs, ¬(tmin ≠ 0 ∧ seg.1 < tmin)) →
      (segs.foldl (segStepU tmin B mjdsF phasesF) st).a.length =
        st.a.length + B * segs.length := by
  induction segs with
  | nil => intro st _; simp
  | cons seg segs ih =>
    intro st hns
    rw [List.foldl_cons,
      ih _ (fun s hs => hns s (List.mem_cons_of_mem _ hs))]
    rw [segStepU_noskip_a _ _ _ _ _ _ (hns seg (List.mem_cons_self _ _))]
    simp [accumPair_fst_length]
    ring

lemma foldlU_fullprof_length (tmin : ℚ) (B : ℕ) (mjdsF phasesF : List ℚ)
    (segs : List (ℚ × ℚ)) :
    ∀ st : RunState,
      (segs.foldl (segStepU tmin B mjdsF phasesF) st).fullprof.length =
        st.fullprof.length := by
  induction segs with
  | nil => intro st; rfl
  | cons seg segs ih =>
    intro st
    rw [List.foldl_cons, ih]
    by_cases h : tmin ≠ 0 ∧ seg.1 < tmin
    · simp [segStepU, h]
    · rw [segStepU_noskip_fullprof _ _ _ _ _ _ h, accumPair_snd_length]

lemma foldlU_fullprof_nonneg (tmin : ℚ) (B : ℕ) (mjdsF phasesF : List ℚ)
    (segs : List (ℚ × ℚ)) :
    ∀ st : RunState, (∀ x ∈ st.fullprof, 0 ≤ x) →
      ∀ x ∈ (segs.foldl (segStepU tmin B mjdsF phasesF) st).fullprof, 0 ≤ x := by
  induction segs with
  | nil => intro st h; exact h
  | cons seg segs ih =>
    intro st h
    rw [List.foldl_cons]
    refine ih _ ?_
    by_cases hc : tmin ≠ 0 ∧ seg.1 < tmin
    · simpa [segStepU, hc] using h
    · rw [segStepU_noskip_fullprof _ _ _ _ _ _ hc, accumPair]
      exact foldl_pairStep_snd_nonneg B _ _ (by simpa using h)

lemma foldlU_sum_invariant (tmin : ℚ) (B : ℕ) (mjdsF phasesF : List ℚ)
    (hbin : ∀ ph ∈ phasesF, binIdx B ph < B) (segs : List (ℚ × ℚ)) :
    ∀ st : RunState, st.fullprof.length = B →
      (segs.foldl (segStepU tmin B mjdsF phasesF) st).fullprof.sum -
          (segs.foldl (segStepU tmin B mjdsF phasesF) st).a.sum =
        st.fullprof.sum - st.a.sum := by
  induction segs with
  | nil => intro st _; rfl
  | cons seg segs ih =>
    intro st hlen
    rw [List.foldl_cons]
    by_cases hc : tmin ≠ 0 ∧ seg.1 < tmin
    · have hstep : segStepU tmin B mjdsF phasesF st seg = st := by
        simp [segStepU, hc]
      rw [hstep, ih st hlen]
    · have hlen' : (segStepU tmin B mjdsF phasesF st seg).fullprof.length = B := by
        rw [segStepU_noskip_fullprof _ _ _ _ _ _ hc, accumPair_snd_length, hlen]
      rw [ih _ hlen']
      have hsel : ∀ ph ∈ selectMask
          (mjdsF.map (fun t => inSegment seg.1 seg.2 t)) phasesF,
          binIdx B ph < B :=
        fun ph hp => hbin ph (mem_selectMask _ _ ph hp)
      rw [segStepU_noskip_fullprof _ _ _ _ _ _ hc,
        segStepU_noskip_a _ _ _ _ _ _ hc,
        accumPair_snd_sum B _ _ hlen hsel, List.sum_append,
        accumPair_fst_sum B _ _ hsel]
      ring

end Niphaseogram

namespace Niphaseogram

lemma segStepW_none (tmin : ℚ) (B : ℕ) (mjdsF phasesF weights : List ℚ)
    (seg : ℚ × ℚ) :
    segStepW tmin B mjdsF phasesF weights none seg = none := rfl

lemma foldlW_none (tmin : ℚ) (B : ℕ) (mjdsF phasesF weights : List ℚ)
    (segs : List (ℚ × ℚ)) :
    segs.foldl (segStepW tmin B mjdsF phasesF weights) none = none := by
  induction segs with
  | nil => rfl
  | cons seg segs ih => rw [List.foldl_cons, segStepW_none, ih]

lemma segStepW_some_skip (tmin : ℚ) (B : ℕ) (mjdsF phasesF weights : List ℚ)
    (st : RunState) (seg : ℚ × ℚ) (h : tmin ≠ 0 ∧ seg.1 < tmin) :
    segStepW tmin B mjdsF phasesF weights (some st) seg = some st := by
  simp [segStepW, h]

lemma segStepW_some_noskip (tmin : ℚ) (B : ℕ)
    (mjdsF phasesF weights : List ℚ) (st : RunState) (seg : ℚ × ℚ)
    (h : ¬(tmin ≠ 0 ∧ seg.1 < tmin)) :
    segStepW tmin B mjdsF phasesF weights (some st) seg =
      (applyMask (mjdsF.map (fun t => inSegment seg.1 seg.2 t)) weights).bind
        (fun selW =>
          let sel := selectMask
            (mjdsF.map (fun t => inSegment seg.1 seg.2 t)) phasesF
          let pfe := accumTriple B (sel.zip selW) st.fullprof st.err
          some ⟨st.a ++ pfe.1, pfe.2.1, pfe.2.2⟩) := by
  simp only [segStepW, Option.bind_some, if_neg h]
  rfl

lemma segStepW_some_mismatch (tmin : ℚ) (B : ℕ)
    (mjdsF phasesF weights : List ℚ) (st : RunState) (seg : ℚ × ℚ)
    (h : ¬(tmin ≠ 0 ∧ seg.1 < tmin)) (hlen : mjdsF.length ≠ weights.length) :
    segStepW tmin B mjdsF phasesF weights (some st) seg = none := by
  rw [segStepW_some_noskip _ _ _ _ _ _ _ h]
  have : applyMask (mjdsF.map (fun t => inSegment seg.1 seg.2 t)) weights
      = none := by
    simp [applyMask, hlen]
  rw [this, Option.none_bind]

lemma foldlW_mismatch (tmin : ℚ) (B : ℕ) (mjdsF phasesF weights : List ℚ)
    (hlen : mjdsF.length ≠ weights.length) (segs : List (ℚ × ℚ)) :
    ∀ st : RunState, (∃ seg ∈ segs, ¬(tmin ≠ 0 ∧ seg.1 < tmin)) →
      segs.foldl (segStepW tmin B mjdsF phasesF weights) (some st) = none := by
  induction segs with
  | nil => intro st h; exact absurd h (by simp)
  | cons seg segs ih =>
    intro st h
    rw [List.foldl_cons]
    by_cases hc : tmin ≠ 0 ∧ seg.1 < tmin
    · rw [segStepW_some_skip _ _ _ _ _ _ _ hc]
      refine ih st ?_
      rcases h with ⟨s, hs, hns⟩
      rcases List.mem_cons.mp hs with rfl | hs
      · exact absurd hc hns
      · exact ⟨s, hs, hns⟩
    · rw [segStepW_some_mismatch _ _ _ _ _ _ _ hc hlen, foldlW_none]

lemma foldlW_invariant (tmin : ℚ) (B : ℕ) (mjdsF phasesF weights : List ℚ)
    (P : RunState → Prop)
    (hstep : ∀ st seg, P st →
      ∀ st', segStepW tmin B mjdsF phasesF weights (some st) seg = some st' →
        P st')
    (segs : List (ℚ × ℚ)) :
    ∀ ost : Option RunState, (∀ st, ost = some st → P st) →
      ∀ st', segs.foldl (segStepW tmin B mjdsF phasesF weights) ost = some st' →
        P st' := by
  induction segs with
  | nil => intro ost h st' hfold; exact h st' hfold
  | cons seg segs ih =>
    intro ost h st' hfold
    rw [List.foldl_cons] at hfold
    refine ih _ ?_ st' hfold
    intro st1 hst1
    cases ost with
    | none => rw [segStepW_none] at hst1; exact absurd hst1 (by simp)
    | some st0 => exact hstep st0 seg (h st0 rfl) st1 hst1

lemma segStepW_some_inv (tmin : ℚ) (B : ℕ)
    (mjdsF phasesF weights : List ℚ) (st st' : RunState) (seg : ℚ × ℚ)
    (h : segStepW tmin B mjdsF phasesF weights (some st) seg = some st') :
    st' = st ∨
      ∃ selW, st'.fullprof =
          (accumTriple B
            ((selectMask (mjdsF.map (fun t => inSegment seg.1 seg.2 t))
              phasesF).zip selW) st.fullprof st.err).2.1 ∧
        st'.err =
          (accumTriple B
            ((selectMask (mjdsF.map (fun t => inSegment seg.1 seg.2 t))
              phasesF).zip selW) st.fullprof st.err).2.2 := by
  by_cases hc : tmin ≠ 0 ∧ seg.1 < tmin
  · rw [segStepW_some_skip _ _ _ _ _ _ _ hc] at h
    exact Or.inl (Option.some_injective _ h).symm
  · rw [segStepW_some_noskip _ _ _ _ _ _ _ hc] at h
    cases ha : applyMask (mjdsF.map (fun t => inSegment seg.1 seg.2 t)) weights with
    | none => rw [ha, Option.none_bind] at h; exact absurd h (by simp)
    | some selW =>
      rw [ha, Option.some_bind] at h
      have := (Option.some_injective _ h).symm
      subst this
      exact Or.inr ⟨selW, rfl, rfl⟩

lemma runWeighted_err_inv (origStart stop tmin : ℚ) (n B : ℕ)
    (mjds phases en weights : List ℚ) (emin emax : ℚ) (st' : RunState)
    (h : runWeighted origStart stop tmin n B mjds phases en weights emin emax
      = some st') :
    st'.err.length = B ∧ st'.fullprof.length = B ∧ ∀ x ∈ st'.err, 0 ≤ x := by
  refine foldlW_invariant tmin B _ _ weights
    (fun st => st.err.length = B ∧ st.fullprof.length = B ∧ ∀ x ∈ st.err, 0 ≤ x)
    ?_ _ _ ?_ st' h
  · intro st seg hP st1 hst1
    rcases segStepW_some_inv _ _ _ _ _ _ _ _ hst1 with rfl | ⟨selW, hfp, herr⟩
    · exact hP
    · refine ⟨?_, ?_, ?_⟩
      · rw [herr, accumTriple_err_length]; exact hP.1
      · rw [hfp, accumTriple_snd_length]; exact hP.2.1
      · rw [herr]
        exact accumTriple_err_nonneg _ _ _ _ hP.2.2
  · intro st hst
    have : st = initState B := Option.some_injective _ hst.symm
    subst this
    refine ⟨by simp [initState], by simp [initState], ?_⟩
    intro x hx
    simp only [initState] at hx
    rcases List.eq_of_mem_replicate hx with rfl
    exact le_refl 0

lemma chunkRows_flatten (B : ℕ) (profiles : List (List ℚ))
    (hB : ∀ p ∈ profiles, p.length = B) :
    chunkRows B profiles.length profiles.flatten = profiles := by
  induction profiles with
  | nil => rfl
  | cons p ps ih =>
    have hp : p.length = B := hB p (List.mem_cons_self _ _)
    simp only [List.length_cons, List.flatten_cons, chunkRows]
    rw [List.take_left' hp, List.drop_left' hp,
      ih (fun q hq => hB q (List.mem_cons_of_mem _ hq))]

lemma length_flatten_const (B : ℕ) (profiles : List (List ℚ))
    (hB : ∀ p ∈ profiles, p.length = B) :
    profiles.flatten.length = profiles.length * B := by
  induction profiles with
  | nil => simp
  | cons p ps ih =>
    have hp : p.length = B := hB p (List.mem_cons_self _ _)
    simp only [List.flatten_cons, List.length_append, List.length_cons, hp,
      ih (fun q hq => hB q (List.mem_cons_of_mem _ hq))]
    ring

lemma reshape_flatten (n B : ℕ) (profiles : List (List ℚ))
    (hn : profiles.length = n) (hB : ∀ p ∈ profiles, p.length = B) :
    reshape n B profiles.flatten = some profiles := by
  subst hn
  rw [reshape, if_pos (length_flatten_const B profiles hB),
    chunkRows_flatten B profiles hB]

lemma reshape_ne (n B : ℕ) (l : List ℚ) (h : l.length ≠ n * B) :
    reshape n B l = none := by
  simp [reshape, h]

end Niphaseogram

namespace Niphaseogram

lemma chunkRows_length (B n : ℕ) : ∀ l : List ℚ, (chunkRows B n l).length = n := by
  induction n with
  | zero => intro l; rfl
  | succ n ih => intro l; simp [chunkRows, ih]

lemma runUnweighted_a_length_full (origStart stop tmin : ℚ) (n B : ℕ)
    (mjds phases en : List ℚ) (emin emax : ℚ)
    (h0 : tmin ≠ 0) (hle : tmin ≤ stop) :
    (runUnweighted origStart stop tmin n B mjds phases en emin emax).a.length
      = n * B := by
  have hes : effStart origStart tmin = tmin := by simp [effStart, h0]
  have hns : ∀ seg ∈ mjdSegments (effStart origStart tmin) stop n,
      ¬(tmin ≠ 0 ∧ seg.1 < tmin) := by
    intro seg hseg hc
    have hge := mjdSegments_fst_ge (effStart origStart tmin) stop n
      (by rw [hes]; exact hle) seg hseg
    rw [hes] at hge
    exact absurd hc.2 (not_lt.mpr hge)
  simp only [runUnweighted]
  rw [foldlU_a_length tmin B _ _ _ (initState B) hns]
  simp only [initState, List.length_nil, length_mjdSegments, Nat.zero_add]
  exact Nat.mul_comm B n

lemma runUnweighted_fullprof_length (origStart stop tmin : ℚ) (n B : ℕ)
    (mjds phases en : List ℚ) (emin emax : ℚ) :
    (runUnweighted origStart stop tmin n B mjds phases en emin emax).fullprof.length
      = B := by
  simp only [runUnweighted]
  rw [foldlU_fullprof_length]
  simp [initState]

lemma runUnweighted_fullprof_nonneg (origStart stop tmin : ℚ) (n B : ℕ)
    (mjds phases en : List ℚ) (emin emax : ℚ) :
    ∀ x ∈ (runUnweighted origStart stop tmin n B mjds phases en emin emax).fullprof,
      0 ≤ x := by
  simp only [runUnweighted]
  refine foldlU_fullprof_nonneg _ _ _ _ _ _ ?_
  intro x hx
  simp only [initState] at hx
  rcases List.eq_of_mem_replicate hx with rfl
  exact le_refl 0

end Niphaseogram

namespace Niphaseogram

lemma getD_range_map {α : Type} (f : ℕ → α) (m k : ℕ) (d : α) (hk : k < m) :
    ((List.range m).map f).getD k d = f k := by
  rw [List.getD_eq_getElem _ _ (by simpa using hk)]
  simp

/-- C4: for every `--scale` value outside {linear, log, sqrt, squared} the
program logs exactly two diagnostic lines and terminates via `sys.exit()` —
which, carrying no argument, yields exit status 0 (success), not the
non-success status the claim asserts.  No figure is produced since the
exit precedes all plotting. -/
theorem c4_invalid_scale_exits_with_status_zero (s : String)
    (h1 : s ≠ "linear") (h2 : s ≠ "log") (h3 : s ≠ "sqrt") (h4 : s ≠ "squared") :
    scaleExitInfo (selectScale s) = some (2, 0) := by
  simp [selectScale, scaleExitInfo, h1, h2, h3, h4]

theorem c4_invalid_scale_exits_with_status_zero_witness :
    ("bogus" ≠ "linear" ∧ "bogus" ≠ "log" ∧ "bogus" ≠ "sqrt" ∧
      "bogus" ≠ "squared") ∧
    scaleExitInfo (selectScale "bogus") = some (2, 0) :=
  ⟨by decide,
   c4_invalid_scale_exits_with_status_zero "bogus" (by decide) (by decide)
     (by decide) (by decide)⟩

/-- C5 counterexample: a segment count of `-3` is NOT rejected with an
error; the code silently produces an empty segment list (numpy
`arange(-3)` is empty), contradicting the claimed `InvalidArgument`
failure for every `N < 1`. -/
theorem c5_counterexample_negative_count_not_rejected :
    timeSegmenterZ 0 10 (-3) = some [] := by decide

/-- C5 (amended): the segmenter performs no validation of N: `N = 0`
raises a division error and every `N < 0` silently yields an empty
segment list; for every `N ≥ 1` it produces `N` segments of equal
duration `(stop-start)/N`, in increasing time order, contiguous, and
exactly covering `[start, stop]`. -/
theorem c5_segmenter_amended (start stop : ℚ) (n : ℤ)
    (hn : 1 ≤ n) (hss : start < stop) :
    timeSegmenterZ start stop 0 = none ∧
    (∀ m : ℤ, m < 0 → timeSegmenterZ start stop m = some []) ∧
    ∃ segs : List (ℚ × ℚ), timeSegmenterZ start stop n = some segs ∧
      segs.length = n.toNat ∧
      (∀ seg ∈ segs, seg.2 - seg.1 = (stop - start) / n) ∧
      (∀ k : ℕ, k + 1 < segs.length →
        (segs.getD k (0, 0)).1 < (segs.getD (k + 1) (0, 0)).1 ∧
        (segs.getD (k + 1) (0, 0)).1 = (segs.getD k (0, 0)).2) ∧
      (segs.getD 0 (0, 0)).1 = start ∧
      (segs.getD (n.toNat - 1) (0, 0)).2 = stop := by
  have hn0 : n ≠ 0 := by omega
  have hN1 : 1 ≤ n.toNat := by omega
  have hnQ : ((n : ℚ)) ≠ 0 := by
    exact_mod_cast hn0
  have hnQpos : (0 : ℚ) < (n : ℚ) := by
    have : (1 : ℚ) ≤ (n : ℚ) := by exact_mod_cast hn
    linarith
  have hdpos : (0 : ℚ) < (stop - start) / (n : ℚ) :=
    div_pos (by linarith) hnQpos
  refine ⟨by simp [timeSegmenterZ], ?_, ?_⟩
  · intro m hm
    have hm0 : m ≠ 0 := by omega
    simp [timeSegmenterZ, hm0, Int.toNat_of_nonpos (le_of_lt hm)]
  · refine ⟨(List.range n.toNat).map
        (fun k : ℕ => (start + (stop - start) / (n : ℚ) * (k : ℚ),
          start + (stop - start) / (n : ℚ) * (k : ℚ)
            + (stop - start) / (n : ℚ))),
      by simp [timeSegmenterZ, hn0], ?_, ?_, ?_, ?_, ?_⟩
    · simp
    · intro seg hseg
      rcases List.mem_map.mp hseg with ⟨k, _, rfl⟩
      ring
    · intro k hk
      have hlen : ((List.range n.toNat).map
          (fun k : ℕ => (start + (stop - start) / (n : ℚ) * (k : ℚ),
            start + (stop - start) / (n : ℚ) * (k : ℚ)
              + (stop - start) / (n : ℚ)))).length = n.toNat := by simp
      rw [hlen] at hk
      rw [getD_range_map _ _ _ _ (by omega), getD_range_map _ _ _ _ hk]
      constructor
      · push_cast
        nlinarith
      · push_cast
        ring
    · rw [getD_range_map _ _ _ _ (by omega)]
      push_cast
      ring
    · rw [getD_range_map _ _ _ _ (by omega)]
      have hcast : ((n.toNat - 1 : ℕ) : ℚ) = (n : ℚ) - 1 := by
        rw [Nat.cast_sub hN1]
        congr 1
        exact_mod_cast congrArg (Int.cast : ℤ → ℚ) (Int.toNat_of_nonneg (by omega))
      rw [hcast]
      field_simp
      ring

theorem c5_segmenter_amended_witness :
    ((1 : ℤ) ≤ 4 ∧ (0 : ℚ) < 10) ∧
    (timeSegmenterZ 0 10 0 = none ∧
      (∀ m : ℤ, m < 0 → timeSegmenterZ (0 : ℚ) 10 m = some []) ∧
      ∃ segs : List (ℚ × ℚ), timeSegmenterZ 0 10 4 = some segs ∧
        segs.length = (4 : ℤ).toNat ∧
        (∀ seg ∈ segs, seg.2 - seg.1 = ((10 : ℚ) - 0) / (4 : ℤ)) ∧
        (∀ k : ℕ, k + 1 < segs.length →
          (segs.getD k (0, 0)).1 < (segs.getD (k + 1) (0, 0)).1 ∧
          (segs.getD (k + 1) (0, 0)).1 = (segs.getD k (0, 0)).2) ∧
        (segs.getD 0 (0, 0)).1 = 0 ∧
        (segs.getD ((4 : ℤ).toNat - 1) (0, 0)).2 = 10) :=
  ⟨⟨by norm_num, by norm_num⟩,
   c5_segmenter_amended 0 10 4 (by norm_num) (by norm_num)⟩

/-- C6: stacking N per-segment profiles of length B (the flat list `a`
reshaped to N rows) and horizontally duplicating them yields a matrix of
shape (N, 2B) in which, for every row and every column j < B, entry j
equals entry B+j. -/
theorem c6_phaseogram_shape_and_duplication (n B : ℕ)
    (profiles : List (List ℚ))
    (hn : profiles.length = n) (hB : ∀ p ∈ profiles, p.length = B) :
    reshape n B profiles.flatten = some profiles ∧
    (hstackSelf profiles).length = n ∧
    (∀ row ∈ hstackSelf profiles, row.length = 2 * B) ∧
    ∀ r j : ℕ, j < B →
      ((hstackSelf profiles).getD r []).getD j 0 =
        ((hstackSelf profiles).getD r []).getD (B + j) 0 := by
  refine ⟨reshape_flatten n B profiles hn hB, by simp [hstackSelf, hn], ?_, ?_⟩
  · intro row hrow
    rcases List.mem_map.mp hrow with ⟨p, hp, rfl⟩
    rw [List.length_append, hB p hp]
    ring
  · intro r j hj
    by_cases hr : r < profiles.length
    · have hrow : (hstackSelf profiles).getD r [] =
          profiles[r] ++ profiles[r] := by
        rw [hstackSelf, List.getD_eq_getElem _ _ (by simpa using hr)]
        simp
      have hplen : profiles[r].length = B := hB _ (List.getElem_mem hr)
      rw [hrow]
      rw [List.getD_append _ _ _ _ (by rw [hplen]; exact hj)]
      rw [List.getD_append_right _ _ _ _ (by rw [hplen]; omega)]
      congr 1
      omega
    · have hrow : (hstackSelf profiles).getD r [] = [] := by
        apply List.getD_eq_default
        simpa [hstackSelf] using not_lt.mp hr
      rw [hrow]
      simp

theorem c6_phaseogram_shape_and_duplication_witness :
    (([[1, 2], [3, 4], [5, 6]] : List (List ℚ)).length = 3 ∧
      (∀ p ∈ ([[1, 2], [3, 4], [5, 6]] : List (List ℚ)), p.length = 2)) ∧
    (reshape 3 2 ([[1, 2], [3, 4], [5, 6]] : List (List ℚ)).flatten =
        some [[1, 2], [3, 4], [5, 6]] ∧
      (hstackSelf [[1, 2], [3, 4], [5, 6]]).length = 3 ∧
      (∀ row ∈ hstackSelf [[1, 2], [3, 4], [5, 6]], row.length = 2 * 2) ∧
      ∀ r j : ℕ, j < 2 →
        ((hstackSelf [[1, 2], [3, 4], [5, 6]]).getD r []).getD j 0 =
          ((hstackSelf [[1, 2], [3, 4], [5, 6]]).getD r []).getD (2 + j) 0) :=
  ⟨⟨by decide, by decide⟩,
   c6_phaseogram_shape_and_duplication 3 2 [[1, 2], [3, 4], [5, 6]]
     (by decide) (by decide)⟩

end Niphaseogram

namespace Niphaseogram

/-- C1 counterexample: original window [0, 10], 5 segments, `--tmin 4`
(which exceeds the original starts 0 and 2 of the first two segments).
Contrary to the claim, the row count does NOT decrease — all 5 rows are
produced, because `tmin` overrides MJDSTART before the segments are
computed — and the recorded axis time range is (4, 10), the OVERRIDDEN
window, not the original (0, 10). -/
theorem c1_counterexample_tmin_keeps_rows_and_shifts_extent :
    (runUnweighted 0 10 4 5 2 [] [] [] (3/10) 12).a.length = 5 * 2 ∧
    Option.map List.length
      (reshape 5 2 (runUnweighted 0 10 4 5 2 [] [] [] (3/10) 12).a) = some 5 ∧
    axisExtent 0 10 4 = (0, 2, 4, 10) := by
  refine ⟨?_, ?_, ?_⟩
  · norm_num [runUnweighted, mjdSegments, effStart, energyKeep, selectMask,
      segStepU, inSegment, accumPair, pairStep, addAt, binIdx, pyInt,
      initState, List.range_succ, List.filterMap_cons, List.foldl_cons,
      List.replicate, Int.toNat_ofNat, List.set]
  · norm_num [runUnweighted, mjdSegments, effStart, energyKeep, selectMask,
      segStepU, inSegment, accumPair, pairStep, addAt, binIdx, pyInt,
      initState, List.range_succ, List.filterMap_cons, List.foldl_cons,
      List.replicate, Int.toNat_ofNat, List.set, reshape, chunkRows]
  · norm_num [axisExtent, effStart]

/-- C1 (amended): when a nonzero `--tmin` (with tmin ≤ stop) is given it
replaces the observation start before segmentation, so no segment start
falls below tmin and no segment is skipped: the flat accumulation has the
full N*B values (all N rows present), and the recorded axis time range is
[tmin, stop] — the overridden window, not the original one. -/
theorem c1_amended_tmin_overrides_start (origStart stop tmin : ℚ) (n B : ℕ)
    (mjds phases en : List ℚ) (emin emax : ℚ)
    (h0 : tmin ≠ 0) (hle : tmin ≤ stop) :
    (runUnweighted origStart stop tmin n B mjds phases en emin emax).a.length
      = n * B ∧
    axisExtent origStart stop tmin = (0, 2, tmin, stop) := by
  refine ⟨runUnweighted_a_length_full origStart stop tmin n B mjds phases en
    emin emax h0 hle, ?_⟩
  simp [axisExtent, effStart, h0]

theorem c1_amended_tmin_overrides_start_witness :
    ((4 : ℚ) ≠ 0 ∧ (4 : ℚ) ≤ 10) ∧
    ((runUnweighted 0 10 4 5 2 [1/2] [1/2] [1] (3/10) 12).a.length = 5 * 2 ∧
      axisExtent 0 10 4 = (0, 2, 4, 10)) :=
  ⟨⟨by norm_num, by norm_num⟩,
   c1_amended_tmin_overrides_start 0 10 4 5 2 [1/2] [1/2] [1] (3/10) 12
     (by norm_num) (by norm_num)⟩

/-- C9: when the tmin override is active (tmin nonzero, tmin ≤ stop) the
recomputed segment starts all satisfy tstart ≥ tmin, so the skip branch
never fires: exactly N*B bin values are appended and the reshape to an
(N, B) matrix succeeds; and for any accumulated list with fewer than N*B
values the reshape fails outright rather than yielding fewer rows. -/
theorem c9_reshape_well_defined (origStart stop tmin : ℚ) (n B : ℕ)
    (mjds phases en : List ℚ) (emin emax : ℚ)
    (h0 : tmin ≠ 0) (hle : tmin ≤ stop) :
    (∀ seg ∈ mjdSegments (effStart origStart tmin) stop n, tmin ≤ seg.1) ∧
    (runUnweighted origStart stop tmin n B mjds phases en emin emax).a.length
      = n * B ∧
    (reshape n B
      (runUnweighted origStart stop tmin n B mjds phases en emin emax).a).isSome
      ∧
    (∀ l : List ℚ, l.length < n * B → reshape n B l = none) := by
  have hes : effStart origStart tmin = tmin := by simp [effStart, h0]
  have hlen := runUnweighted_a_length_full origStart stop tmin n B mjds phases
    en emin emax h0 hle
  refine ⟨?_, hlen, ?_, ?_⟩
  · intro seg hseg
    have hge := mjdSegments_fst_ge (effStart origStart tmin) stop n
      (by rw [hes]; exact hle) seg hseg
    rwa [hes] at hge
  · rw [reshape, if_pos hlen]
    rfl
  · intro l hl
    exact reshape_ne n B l (by omega)

theorem c9_reshape_well_defined_witness :
    ((4 : ℚ) ≠ 0 ∧ (4 : ℚ) ≤ 10) ∧
    ((∀ seg ∈ mjdSegments (effStart 0 4) 10 5, (4 : ℚ) ≤ seg.1) ∧
      (runUnweighted 0 10 4 5 2 [1/2] [1/2] [1] (3/10) 12).a.length = 5 * 2 ∧
      (reshape 5 2
        (runUnweighted 0 10 4 5 2 [1/2] [1/2] [1] (3/10) 12).a).isSome ∧
      (∀ l : List ℚ, l.length < 5 * 2 → reshape 5 2 l = none)) :=
  ⟨⟨by norm_num, by norm_num⟩,
   c9_reshape_well_defined 0 10 4 5 2 [1/2] [1/2] [1] (3/10) 12
     (by norm_num) (by norm_num)⟩

/-- C10: the z-axis transform chosen by `--scale` touches only the
flattened 2-d image data; the full profile, the error accumulator, and
the 1-d panel's values and error bars are identical across all scale
choices (they always show the raw, linear accumulation). -/
theorem c10_scale_only_affects_image (s : Scale) (origStart stop tmin : ℚ)
    (n B : ℕ) (mjds phases en weights : List ℚ) (emin emax : ℚ) :
    (figureUnweighted s origStart stop tmin n B mjds phases en emin emax).image
      = (runUnweighted origStart stop tmin n B mjds phases en emin emax).a.map
          (fun q => scaleFun s (q : ℝ)) ∧
    (figureUnweighted s origStart stop tmin n B mjds phases en emin emax).fullprof
      = (figureUnweighted .linear origStart stop tmin n B mjds phases en emin
          emax).fullprof ∧
    (figureUnweighted s origStart stop tmin n B mjds phases en emin emax).err
      = (figureUnweighted .linear origStart stop tmin n B mjds phases en emin
          emax).err ∧
    (figureUnweighted s origStart stop tmin n B mjds phases en emin emax).py
      = (figureUnweighted .linear origStart stop tmin n B mjds phases en emin
          emax).py ∧
    (figureUnweighted s origStart stop tmin n B mjds phases en emin emax).pe
      = (figureUnweighted .linear origStart stop tmin n B mjds phases en emin
          emax).pe ∧
    Option.map FigureData.fullprof
        (figureWeighted s origStart stop tmin n B mjds phases en weights emin
          emax)
      = Option.map FigureData.fullprof
          (figureWeighted .linear origStart stop tmin n B mjds phases en
            weights emin emax) ∧
    Option.map FigureData.err
        (figureWeighted s origStart stop tmin n B mjds phases en weights emin
          emax)
      = Option.map FigureData.err
          (figureWeighted .linear origStart stop tmin n B mjds phases en
            weights emin emax) ∧
    Option.map FigureData.py
        (figureWeighted s origStart stop tmin n B mjds phases en weights emin
          emax)
      = Option.map FigureData.py
          (figureWeighted .linear origStart stop tmin n B mjds phases en
            weights emin emax) ∧
    Option.map FigureData.pe
        (figureWeighted s origStart stop tmin n B mjds phases en weights emin
          emax)
      = Option.map FigureData.pe
          (figureWeighted .linear origStart stop tmin n B mjds phases en
            weights emin emax) := by
  refine ⟨rfl, rfl, rfl, rfl, rfl, ?_, ?_, ?_, ?_⟩ <;>
    cases h : runWeighted origStart stop tmin n B mjds phases en weights emin
      emax <;>
    simp [figureWeighted, h]

end Niphaseogram

namespace Niphaseogram

/-- C2: the energy filter is applied to the times and phases but never to
the weight column, so whenever the filter removes at least one event the
per-segment boolean mask (of filtered length) is applied to the unfiltered
weight array — a length-mismatched boolean indexing, which is ill-defined
(numpy raises `IndexError`); the weighted accumulation therefore never
pairs each filtered event with its own weight. -/
theorem c2_weight_indexing_ill_defined (origStart stop tmin emin emax : ℚ)
    (n B : ℕ) (mjds phases en weights : List ℚ)
    (hn : 1 ≤ n)
    (hm : mjds.length = en.length)
    (hw : weights.length = en.length)
    (hcut : (energyKeep emin emax en).count true < en.length) :
    runWeighted origStart stop tmin n B mjds phases en weights emin emax
      = none := by
  have hkeeplen : (energyKeep emin emax en).length = mjds.length := by
    simp [energyKeep, hm]
  have hmjdsF : (selectMask (energyKeep emin emax en) mjds).length
      = (energyKeep emin emax en).count true :=
    length_selectMask _ _ hkeeplen
  have hmis : (selectMask (energyKeep emin emax en) mjds).length
      ≠ weights.length := by
    rw [hmjdsF, hw]
    omega
  simp only [runWeighted]
  apply foldlW_mismatch tmin B _ _ weights hmis
  refine ⟨_, mjdSegments_head_mem (effStart origStart tmin) stop n hn, ?_⟩
  rintro ⟨ht0, hlt⟩
  have hes : effStart origStart tmin = tmin := by simp [effStart, ht0]
  rw [hes] at hlt
  simp at hlt

theorem c2_weight_indexing_ill_defined_witness :
    ((1 : ℕ) ≤ 1 ∧
      ([(1 : ℚ)/2, 3/4] : List ℚ).length = ([1, 100] : List ℚ).length ∧
      ([(3 : ℚ), 5] : List ℚ).length = ([1, 100] : List ℚ).length ∧
      (energyKeep 0 12 [1, 100]).count true < ([1, 100] : List ℚ).length) ∧
    runWeighted 0 1 0 1 1 [1/2, 3/4] [1/2, 1/4] [1, 100] [3, 5] 0 12 = none :=
  ⟨⟨by decide, by decide, by decide, by decide⟩,
   c2_weight_indexing_ill_defined 0 1 0 0 12 1 1 [1/2, 3/4] [1/2, 1/4]
     [1, 100] [3, 5] (by decide) (by decide) (by decide) (by decide)⟩

/-- C7: for phases in [0,1) and B ≥ 1 every event falls into exactly one
bin index in [0,B) (the index is a natural number, so nonnegative); the
per-segment profile's bin values sum to the number of selected events
(and the full profile gains exactly that amount); and over the whole run
the full profile's total equals the total of the flat list `a`, which is
the concatenation of the per-segment profiles of all processed segments. -/
theorem c7_bin_assignment_and_totals (origStart stop tmin emin emax : ℚ)
    (n B : ℕ) (mjds phases en : List ℚ) (hB : 1 ≤ B)
    (hph : ∀ ph ∈ phases, 0 ≤ ph ∧ ph < 1) :
    (∀ ph ∈ phases, binIdx B ph < B) ∧
    (∀ sel full : List ℚ, (∀ ph ∈ sel, ph ∈ phases) → full.length = B →
      (accumPair B sel full).1.sum = sel.length ∧
      (accumPair B sel full).2.sum = full.sum + sel.length) ∧
    (runUnweighted origStart stop tmin n B mjds phases en emin
        emax).fullprof.sum
      = (runUnweighted origStart stop tmin n B mjds phases en emin
          emax).a.sum := by
  have hb : ∀ ph ∈ phases, binIdx B ph < B := fun ph hp =>
    binIdx_lt B ph hB (hph ph hp).1 (hph ph hp).2
  refine ⟨hb, ?_, ?_⟩
  · intro sel full hsub hfull
    have hbin : ∀ ph ∈ sel, binIdx B ph < B := fun ph hp => hb ph (hsub ph hp)
    exact ⟨accumPair_fst_sum B sel full hbin,
      accumPair_snd_sum B sel full hfull hbin⟩
  · simp only [runUnweighted]
    have hbinF : ∀ ph ∈ selectMask (energyKeep emin emax en) phases,
        binIdx B ph < B := fun ph hp => hb ph (mem_selectMask _ _ ph hp)
    have key := foldlU_sum_invariant tmin B
      (selectMask (energyKeep emin emax en) mjds)
      (selectMask (energyKeep emin emax en) phases) hbinF
      (mjdSegments (effStart origStart tmin) stop n) (initState B)
      (by simp [initState])
    have hinit : (initState B).fullprof.sum - (initState B).a.sum = 0 := by
      simp [initState]
    rw [hinit] at key
    linarith [key]

theorem c7_bin_assignment_and_totals_witness :
    ((1 : ℕ) ≤ 4 ∧ (∀ ph ∈ ([1/2] : List ℚ), 0 ≤ ph ∧ ph < 1)) ∧
    ((∀ ph ∈ ([1/2] : List ℚ), binIdx 4 ph < 4) ∧
      (∀ sel full : List ℚ,
        (∀ ph ∈ sel, ph ∈ ([1/2] : List ℚ)) → full.length = 4 →
        (accumPair 4 sel full).1.sum = sel.length ∧
        (accumPair 4 sel full).2.sum = full.sum + sel.length) ∧
      (runUnweighted 0 1 0 1 4 [1/2] [1/2] [1] 0 12).fullprof.sum
        = (runUnweighted 0 1 0 1 4 [1/2] [1/2] [1] 0 12).a.sum) :=
  ⟨⟨by norm_num, by norm_num⟩,
   c7_bin_assignment_and_totals 0 1 0 0 12 1 4 [1/2] [1/2] [1]
     (by norm_num) (by norm_num)⟩

end Niphaseogram

namespace Niphaseogram

lemma stepValues_last (fp : List ℚ) :
    (stepValues fp).getD (2 * fp.length) 0 = fp.getD 0 0 := by
  simp only [stepValues]
  have hl : (fp ++ fp).length = 2 * fp.length := by
    rw [List.length_append, two_mul]
  rw [List.getD_append_right _ _ _ _ (le_of_eq hl)]
  rw [hl, Nat.sub_self]
  rfl

lemma doubled_nonneg (v : List ℚ) (h : ∀ x ∈ v, 0 ≤ x) :
    ∀ x ∈ doubled v, 0 ≤ x := by
  intro x hx
  rcases List.mem_append.mp hx with hx | hx
  · exact h x hx
  · exact h x hx

/-- C8: the step-plot sequence built from the full profile has length
2B+1 and its final element repeats the first bin's value; the error-bar
sequence has length 2B and, squared, recovers element-wise the doubled
error accumulator (sum of weight squares per bin) in weighted mode and
the doubled raw bin values in unweighted mode. -/
theorem c8_folded_profile_errors (origStart stop tmin emin emax : ℚ)
    (n B : ℕ) (mjds phases en weights : List ℚ) (stw : RunState)
    (hw : runWeighted origStart stop tmin n B mjds phases en weights emin emax
      = some stw) :
    (stepValues
        (runUnweighted origStart stop tmin n B mjds phases en emin
          emax).fullprof).length = 2 * B + 1 ∧
    (stepValues
        (runUnweighted origStart stop tmin n B mjds phases en emin
          emax).fullprof).getD (2 * B) 0
      = (runUnweighted origStart stop tmin n B mjds phases en emin
          emax).fullprof.getD 0 0 ∧
    (doubled (runUnweighted origStart stop tmin n B mjds phases en emin
        emax).fullprof).length = 2 * B ∧
    (∀ i : ℕ,
      Real.sqrt (((doubled
          (runUnweighted origStart stop tmin n B mjds phases en emin
            emax).fullprof).getD i 0 : ℚ) : ℝ) ^ 2
        = (((doubled
            (runUnweighted origStart stop tmin n B mjds phases en emin
              emax).fullprof).getD i 0 : ℚ) : ℝ)) ∧
    (doubled stw.err).length = 2 * B ∧
    (∀ i : ℕ,
      Real.sqrt (((doubled stw.err).getD i 0 : ℚ) : ℝ) ^ 2
        = (((doubled stw.err).getD i 0 : ℚ) : ℝ)) := by
  have hfpl := runUnweighted_fullprof_length origStart stop tmin n B mjds
    phases en emin emax
  have hfpn := runUnweighted_fullprof_nonneg origStart stop tmin n B mjds
    phases en emin emax
  obtain ⟨herrl, _, herrn⟩ := runWeighted_err_inv origStart stop tmin n B
    mjds phases en weights emin emax stw hw
  refine ⟨?_, ?_, ?_, ?_, ?_, ?_⟩
  · simp only [stepValues, List.length_append, List.length_cons,
      List.length_nil, hfpl]
    omega
  · have := stepValues_last
      (runUnweighted origStart stop tmin n B mjds phases en emin emax).fullprof
    rwa [hfpl] at this
  · simp only [doubled, List.length_append, hfpl]
    omega
  · intro i
    refine Real.sq_sqrt ?_
    exact_mod_cast getD_nonneg _ i (doubled_nonneg _ hfpn)
  · simp only [doubled, List.length_append, herrl]
    omega
  · intro i
    refine Real.sq_sqrt ?_
    exact_mod_cast getD_nonneg _ i (doubled_nonneg _ herrn)

theorem c8_folded_profile_errors_witness :
    runWeighted 0 1 0 1 1 [1/2] [1/2] [1] [3] 0 12
        = some ⟨[3], [3], [9]⟩ ∧
    ((stepValues (runUnweighted 0 1 0 1 1 [1/2] [1/2] [1] 0 12).fullprof).length
        = 2 * 1 + 1 ∧
      (stepValues
          (runUnweighted 0 1 0 1 1 [1/2] [1/2] [1] 0 12).fullprof).getD (2 * 1) 0
        = (runUnweighted 0 1 0 1 1 [1/2] [1/2] [1] 0 12).fullprof.getD 0 0 ∧
      (doubled (runUnweighted 0 1 0 1 1 [1/2] [1/2] [1] 0 12).fullprof).length
        = 2 * 1 ∧
      (∀ i : ℕ,
        Real.sqrt (((doubled
            (runUnweighted 0 1 0 1 1 [1/2] [1/2] [1] 0 12).fullprof).getD
              i 0 : ℚ) : ℝ) ^ 2
          = (((doubled
              (runUnweighted 0 1 0 1 1 [1/2] [1/2] [1] 0 12).fullprof).getD
                i 0 : ℚ) : ℝ)) ∧
      (doubled (RunState.mk [3] [3] [9]).err).length = 2 * 1 ∧
      (∀ i : ℕ,
        Real.sqrt (((doubled (RunState.mk [3] [3] [9]).err).getD i 0 : ℚ) : ℝ)
            ^ 2
          = (((doubled (RunState.mk [3] [3] [9]).err).getD i 0 : ℚ) : ℝ))) :=
  ⟨by norm_num [runWeighted, mjdSegments, effStart, energyKeep, selectMask,
      segStepW, inSegment, accumTriple, tripleStep, addAt, binIdx, pyInt,
      initState, applyMask, List.range_succ, List.filterMap_cons,
      List.foldl_cons, List.replicate, Int.toNat_ofNat, List.set],
   c8_folded_profile_errors 0 1 0 0 12 1 1 [1/2] [1/2] [1] [3] ⟨[3], [3], [9]⟩
     (by norm_num [runWeighted, mjdSegments, effStart, energyKeep, selectMask,
       segStepW, inSegment, accumTriple, tripleStep, addAt, binIdx, pyInt,
       initState, applyMask, List.range_succ, List.filterMap_cons,
       List.foldl_cons, List.replicate, Int.toNat_ofNat, List.set])⟩

end Niphaseogram

namespace Niphaseogram

/-- C3 counterexample: single segment [0, 1), one event with time exactly
equal to tstart = 0 (phase 1/2, energy in range).  The claim says this
event is included in the segment, but the code's selection
`(mjds>tstart)&(mjds<tstop)` is strict at tstart and excludes it: the
accumulated profile total is 0.  A second run with the event strictly
inside the segment accumulates 1, showing the exclusion comes from the
boundary, not from some other filter. -/
theorem c3_counterexample_tstart_event_excluded :
    (runUnweighted 0 1 0 1 4 [0] [1/2] [1] 0 12).fullprof.sum = 0 ∧
    (runUnweighted 0 1 0 1 4 [1/2] [1/2] [1] 0 12).fullprof.sum = 1 := by
  constructor
  · norm_num [runUnweighted, mjdSegments, effStart, energyKeep, selectMask,
      segStepU, inSegment, accumPair, pairStep, addAt, binIdx, pyInt,
      initState, List.range_succ, List.filterMap_cons, List.foldl_cons,
      List.replicate, Int.toNat_ofNat, List.set]
  · norm_num [runUnweighted, mjdSegments, effStart, energyKeep, selectMask,
      segStepU, inSegment, accumPair, pairStep, addAt, binIdx, pyInt,
      initState, List.range_succ, List.filterMap_cons, List.foldl_cons,
      List.replicate, Int.toNat_ofNat, List.set]
    decide

/-- C3 (amended): for each segment the code selects exactly the events
with tstart < time < tstop — the interval is OPEN at both ends, so an
event at exactly tstart is excluded (as is one at exactly tstop).  Stated
for a run with a single segment, which spans exactly [start, stop]: the
accumulated total counts precisely the events with start < t < stop that
pass the (inclusive) energy cut. -/
theorem c3_amended_selection_strict_both_ends (origStart stop emin emax : ℚ)
    (B : ℕ) (mjds phases en : List ℚ) (hB : 1 ≤ B)
    (hm : mjds.length = en.length) (hp : phases.length = en.length)
    (hph : ∀ ph ∈ phases, 0 ≤ ph ∧ ph < 1) :
    (runUnweighted origStart stop 0 1 B mjds phases en emin emax).fullprof.sum
      = (((mjds.zip en).countP
          (fun te => decide (origStart < te.1 ∧ te.1 < stop ∧
            emin ≤ te.2 ∧ te.2 ≤ emax)) : ℕ) : ℚ) := by
  have hes : effStart origStart (0 : ℚ) = origStart := by simp [effStart]
  have hseg : mjdSegments origStart stop 1 = [(origStart, stop)] := by
    rw [mjdSegments, show List.range 1 = [0] from rfl]
    simp only [List.map_cons, List.map_nil]
    congr 1
    rw [Prod.mk.injEq]
    constructor
    · push_cast
      ring
    · push_cast
      ring
  simp only [runUnweighted, hes, hseg]
  rw [List.foldl_cons, List.foldl_nil]
  rw [segStepU_noskip_fullprof _ _ _ _ _ _ (by simp)]
  have hsub : ∀ ph ∈ selectMask
      ((selectMask (energyKeep emin emax en) mjds).map
        (fun t => inSegment (origStart, stop).1 (origStart, stop).2 t))
      (selectMask (energyKeep emin emax en) phases), ph ∈ phases :=
    fun ph hp' => mem_selectMask _ _ ph (mem_selectMask _ _ ph hp')
  have hbin : ∀ ph ∈ selectMask
      ((selectMask (energyKeep emin emax en) mjds).map
        (fun t => inSegment (origStart, stop).1 (origStart, stop).2 t))
      (selectMask (energyKeep emin emax en) phases), binIdx B ph < B :=
    fun ph hp' => binIdx_lt B ph hB (hph ph (hsub ph hp')).1
      (hph ph (hsub ph hp')).2
  rw [accumPair_snd_sum B _ _ (by simp [initState]) hbin]
  have hzero : (initState B).fullprof.sum = 0 := by simp [initState]
  rw [hzero, zero_add]
  have hkeepm : (energyKeep emin emax en).length = mjds.length := by
    simp [energyKeep, hm]
  have hkeepp : (energyKeep emin emax en).length = phases.length := by
    simp [energyKeep, hp]
  have hlen1 : (selectMask (energyKeep emin emax en) mjds).length
      = (energyKeep emin emax en).count true := length_selectMask _ _ hkeepm
  have hlen2 : (selectMask (energyKeep emin emax en) phases).length
      = (energyKeep emin emax en).count true := length_selectMask _ _ hkeepp
  have hmaplen : (((selectMask (energyKeep emin emax en) mjds).map
      (fun t => inSegment (origStart, stop).1 (origStart, stop).2 t))).length
      = (selectMask (energyKeep emin emax en) phases).length := by
    rw [List.length_map, hlen1, hlen2]
  rw [length_selectMask _ _ hmaplen, count_true_map]
  have hzip := countP_selectMask_zip mjds en hm
    (fun t => inSegment (origStart, stop).1 (origStart, stop).2 t)
    (fun e => decide (emin ≤ e) && decide (e ≤ emax))
  rw [show energyKeep emin emax en
    = en.map (fun e => decide (emin ≤ e) && decide (e ≤ emax)) from rfl, hzip]
  congr 1
  apply List.countP_congr
  intro te _
  simp [inSegment, and_assoc]

theorem c3_amended_selection_strict_both_ends_witness :
    ((1 : ℕ) ≤ 4 ∧ ([0, 1/2] : List ℚ).length = ([1, 1] : List ℚ).length ∧
      ([1/2, 1/2] : List ℚ).length = ([1, 1] : List ℚ).length ∧
      (∀ ph ∈ ([1/2, 1/2] : List ℚ), 0 ≤ ph ∧ ph < 1)) ∧
    (runUnweighted 0 1 0 1 4 [0, 1/2] [1/2, 1/2] [1, 1] 0 12).fullprof.sum
      = ((([(0 : ℚ), 1/2].zip ([1, 1] : List ℚ)).countP
          (fun te => decide ((0 : ℚ) < te.1 ∧ te.1 < 1 ∧
            (0 : ℚ) ≤ te.2 ∧ te.2 ≤ 12)) : ℕ) : ℚ) :=
  ⟨⟨by norm_num, by norm_num, by norm_num, by norm_num⟩,
   c3_amended_selection_strict_both_ends 0 1 0 12 4 [0, 1/2] [1/2, 1/2] [1, 1]
     (by norm_num) (by norm_num) (by norm_num) (by norm_num)⟩

end Niphaseogram
